import Mathlib

/-!
Shallow embedding of the EDL / segment-algebra core of PyClipper
(`PyClipper_v1.py` and `PyClipper_Beta_AudioOptions.py`), together with
theorems settling the specification claims about it.

Times are modelled as rationals (`ℚ`): every operation the code performs
on timestamps is comparison, `max`, addition, subtraction and
multiplication by constants, all exact on the decimal literals involved.
Python exceptions are modelled with `Except String`; a Python value that
may be `None` is modelled with `Option`.  Python string manipulation is
modelled on the character list of the string (`String.data`) with
structurally recursive helpers.
-/

deriving instance DecidableEq for Except

namespace PyClipper

/-- Python `str.strip()` on a character list: drop whitespace from both
ends. -/
def trimChars (cs : List Char) : List Char :=
  ((cs.dropWhile Char.isWhitespace).reverse.dropWhile Char.isWhitespace).reverse

/-- Python `str.lower()` on a character list. -/
def lowerChars (cs : List Char) : List Char :=
  cs.map Char.toLower

/-- Python `str.split(sep)` on a character list, with an accumulator for
the current piece (in reverse). -/
def splitChars (sep : Char) : List Char → List Char → List (List Char)
  | [], acc => [acc.reverse]
  | c :: cs, acc =>
    if c = sep then acc.reverse :: splitChars sep cs []
    else splitChars sep cs (c :: acc)

/-- Numeric value of a list of decimal digit characters. -/
def digitsToNat (cs : List Char) : Nat :=
  cs.foldl (fun n c => 10 * n + (c.toNat - 48)) 0

/-- Negate when the literal carried a minus sign. -/
def applySign (neg : Bool) (q : ℚ) : ℚ :=
  if neg then -q else q

/-- Model of Python's builtin `float` restricted to the decimal-literal
fragment the program feeds it: optional surrounding whitespace, optional
sign, digits with at most one decimal point (at least one digit overall).
Returns `none` where `float` raises `ValueError`. -/
def pyFloat (cs : List Char) : Option ℚ :=
  let t := trimChars cs
  let neg : Bool := match t with | '-' :: _ => true | _ => false
  let core : List Char := match t with
    | '-' :: rest => rest
    | '+' :: rest => rest
    | rest => rest
  match splitChars '.' core [] with
  | [ip] =>
      if ip.isEmpty || !ip.all Char.isDigit then none
      else some (applySign neg (digitsToNat ip : ℚ))
  | [ip, fp] =>
      if (ip.isEmpty && fp.isEmpty) || !ip.all Char.isDigit || !fp.all Char.isDigit then
        none
      else
        some (applySign neg ((digitsToNat ip : ℚ) + (digitsToNat fp : ℚ) / 10 ^ fp.length))
  | _ => none

/-- Embedding of `parse_timestamp_string(s, video_duration)` (identical in
both source files).  The Python function returns `video_duration` verbatim
for the text `"end"`, so its result type is `Option ℚ` whenever the
duration argument may be `None`; raises are modelled with `Except`. -/
def parse_timestamp_string (s : String) (video_duration : Option ℚ) :
    Except String (Option ℚ) :=
  let t := lowerChars (trimChars s.data)
  if t = "start".data then .ok (some 0)
  else if t = "end".data then .ok video_duration
  else if t.contains ':' then
    match (splitChars ':' t []).mapM pyFloat with
    | none => .error "could not convert string to float"
    | some parts =>
      match parts with
      | [m, sec] => .ok (some (m * 60 + sec))
      | [h, m, sec] => .ok (some (h * 3600 + m * 60 + sec))
      | _ => .error "Invalid time format"
  else
    match pyFloat t with
    | some v => .ok (some v)
    | none => .error "Could not parse timestamp"

/-- One CSV row as produced by `csv.DictReader`: `none` models an absent
column, `some ""` a present but empty cell. -/
structure Row where
  action : Option String
  record_in : Option String
  record_out : Option String
  insert_source : Option String
  source_in : Option String
  source_out : Option String
  transition_in : Option String
  transition_in_duration : Option String
  transition_out : Option String
  transition_out_duration : Option String
deriving Repr, DecidableEq

/-- One parsed edit-operation dict; `none` models an absent key. -/
structure Op where
  action : String
  record_in : Option ℚ
  record_out : Option ℚ
  insert_source : Option String
  source_in : Option ℚ
  source_out : Option ℚ
  transition_in : Option String
  transition_in_duration : Option ℚ
  transition_out : Option String
  transition_out_duration : Option ℚ
deriving Repr, DecidableEq

/-- `if 'record_in' in row and row['record_in']: op['record_in'] = parse…` —
the field is parsed only when the column is present and its cell
non-empty (Python truthiness of strings). -/
def parseField (f : Option String) (D : ℚ) : Except String (Option ℚ) :=
  match f with
  | none => .ok none
  | some s => if s.data.isEmpty then .ok none else parse_timestamp_string s (some D)

/-- `row.get('transition_in', '').strip().lower() or None`. -/
def transName (f : Option String) : Option String :=
  let t := lowerChars (trimChars (f.getD "").data)
  if t.isEmpty then none else some ⟨t⟩

/-- `float(row.get('transition_in_duration', '0') or 0)`. -/
def transDur (f : Option String) : Except String ℚ :=
  match f with
  | none => .ok 0
  | some s =>
    if s.data.isEmpty then .ok 0
    else
      match pyFloat s.data with
      | some v => .ok v
      | none => .error "could not convert string to float"

/-- Embedding of the `try`-body of `load_edl_csv` for one row, from
`PyClipper_Beta_AudioOptions.py` lines 299–338; `PyClipper_v1.py` lines
587–600 are the identical code minus the `insert` branch, so this
definition covers both files.  Note the range-validation branch tests only
`action in {'remove', 'keep'}`. -/
def parse_edl_row (row : Row) (D : ℚ) : Except String Op :=
  let action : List Char := lowerChars (trimChars (row.action.getD "").data)
  match parseField row.record_in D with
  | .error e => .error e
  | .ok rin =>
  match parseField row.record_out D with
  | .error e => .error e
  | .ok rout =>
  if action = "remove".data ∨ action = "keep".data then
    match rin, rout with
    | some i, some o =>
      if 0 ≤ i ∧ i < o ∧ o ≤ D then
        .ok (Op.mk ⟨action⟩ rin rout none none none none none none none)
      else .error "Invalid time range"
    | _, _ => .error "Missing record_in or record_out"
  else if action = "insert".data then
    let src := trimChars (row.insert_source.getD "").data
    if src.isEmpty then .error "Missing insert_source for insert action"
    else
      match parse_timestamp_string (row.source_in.getD "0") none with
      | .error e => .error e
      | .ok si =>
      match parse_timestamp_string (row.source_out.getD "") none with
      | .error e => .error e
      | .ok so =>
      match si, so with
      | some vi, some vo =>
        if vi ≥ vo then .error "Invalid source range"
        else if rin = none then .error "Missing record_in for insert action"
        else
          match transDur row.transition_in_duration with
          | .error e => .error e
          | .ok tid =>
          match transDur row.transition_out_duration with
          | .error e => .error e
          | .ok tod =>
            .ok (Op.mk ⟨action⟩ rin rout (some ⟨src⟩) (some vi) (some vo)
                  (transName row.transition_in) (some tid)
                  (transName row.transition_out) (some tod))
      | _, _ => .error "Missing source_in or source_out for insert action"
  else
    .ok (Op.mk ⟨action⟩ rin rout none none none none none none none)

/-- Row loop of `load_edl_csv` with a running 1-based row index: on a row
failure, `strict` aborts with the index and message, lenient records the
diagnostic and continues. -/
def load_edl_go (D : ℚ) (strict : Bool) (idx : Nat) :
    List Row → Except (Nat × String) (List Op × List (Nat × String))
  | [] => .ok ([], [])
  | r :: rest =>
    match parse_edl_row r D with
    | .ok op =>
      match load_edl_go D strict (idx + 1) rest with
      | .ok (ops, diags) => .ok (op :: ops, diags)
      | .error e => .error e
    | .error msg =>
      if strict then .error (idx, msg)
      else
        match load_edl_go D strict (idx + 1) rest with
        | .ok (ops, diags) => .ok (ops, (idx, msg) :: diags)
        | .error e => .error e

/-- Embedding of `load_edl_csv(rows, video_duration, strict)`: rows are
enumerated from 1 (`enumerate(reader, 1)`). -/
def load_edl_csv (rows : List Row) (D : ℚ) (strict : Bool) :
    Except (Nat × String) (List Op × List (Nat × String)) :=
  load_edl_go D strict 1 rows

/-- Lexicographic order on `(start, end)` pairs: the order Python's
`list.sort()` uses on 2-tuples. -/
def lexLe (a b : ℚ × ℚ) : Prop :=
  a.1 < b.1 ∨ (a.1 = b.1 ∧ a.2 ≤ b.2)

instance decLexLe (a b : ℚ × ℚ) : Decidable (lexLe a b) := by
  unfold lexLe; infer_instance

/-- Sorted insertion with respect to `lexLe`. -/
def insertSorted (a : ℚ × ℚ) : List (ℚ × ℚ) → List (ℚ × ℚ)
  | [] => [a]
  | b :: l => if lexLe a b then a :: b :: l else b :: insertSorted a l

/-- Embedding of `remove_segments.sort()`.  Python's sort is a stable sort
by the lexicographic tuple order; keys that compare equal here are equal
pairs, so any sort by `lexLe` produces the same list, and insertion sort
is used. -/
def pySort : List (ℚ × ℚ) → List (ℚ × ℚ)
  | [] => []
  | a :: l => insertSorted a (pySort l)

/-- The merge scan over the sorted list (`for seg in remove_segments:` at
`PyClipper_v1.py` 686–690): a new segment is opened only when
`seg[0] > merged[-1][1]`; otherwise the current segment's end is extended
to the max of the two ends. -/
def mergeLoop (cur : ℚ × ℚ) : List (ℚ × ℚ) → List (ℚ × ℚ)
  | [] => [cur]
  | s :: rest =>
    if cur.2 < s.1 then cur :: mergeLoop s rest
    else mergeLoop (cur.1, max cur.2 s.2) rest

/-- The merge loop including its empty-accumulator start. -/
def mergeScan : List (ℚ × ℚ) → List (ℚ × ℚ)
  | [] => []
  | s :: rest => mergeLoop s rest

/-- Sort-then-merge normalization (`PyClipper_v1.py` lines 684–691,
identically `PyClipper_Beta_AudioOptions.py` lines 830–837). -/
def normalize (l : List (ℚ × ℚ)) : List (ℚ × ℚ) :=
  mergeScan (pySort l)

/-- Mute-set reconciliation (`PyClipper_v1.py` lines 694–726): EDL-sourced
and interactive mute segments are accumulated into one list, sorted, and
merged with the same scan (`seg[0] > merged_segments[-1][1]` opens a new
segment). -/
def merged_segments (edl_mutes interactive_mutes : List (ℚ × ℚ)) : List (ℚ × ℚ) :=
  mergeScan (pySort (edl_mutes ++ interactive_mutes))

/-- Keep-segment loop (`PyClipper_v1.py` lines 731–738) with the running
`last_end` cursor made explicit. -/
def keepGo (D : ℚ) (last_end : ℚ) : List (ℚ × ℚ) → List (ℚ × ℚ)
  | [] => if last_end < D then [(last_end, D)] else []
  | (s, e) :: rest =>
    if last_end < s then (last_end, s) :: keepGo D e rest else keepGo D e rest

/-- Embedding of the keep-segment derivation: cursor starts at `0.0`. -/
def keep_segments (remove : List (ℚ × ℚ)) (D : ℚ) : List (ℚ × ℚ) :=
  keepGo D 0 remove

/-- Total covered length of a list of ranges, counted with multiplicity. -/
def totalLen (l : List (ℚ × ℚ)) : ℚ :=
  (l.map (fun r => r.2 - r.1)).sum

/-- A point lies in some range of the list (ranges taken half-open). -/
def covers (l : List (ℚ × ℚ)) (x : ℚ) : Prop :=
  ∃ r ∈ l, r.1 ≤ x ∧ x < r.2

/-! ### Lemmas about the sort -/

theorem lexLe_total (a b : ℚ × ℚ) : lexLe a b ∨ lexLe b a := by
  unfold lexLe
  rcases lt_trichotomy a.1 b.1 with h | h | h
  · exact Or.inl (Or.inl h)
  · rcases le_total a.2 b.2 with h2 | h2
    · exact Or.inl (Or.inr ⟨h, h2⟩)
    · exact Or.inr (Or.inr ⟨h.symm, h2⟩)
  · exact Or.inr (Or.inl h)

theorem lexLe_trans {a b c : ℚ × ℚ} (h1 : lexLe a b) (h2 : lexLe b c) : lexLe a c := by
  rcases h1 with h1 | ⟨h1, h1'⟩ <;> rcases h2 with h2 | ⟨h2, h2'⟩
  · exact Or.inl (h1.trans h2)
  · exact Or.inl (h2 ▸ h1)
  · exact Or.inl (h1 ▸ h2)
  · exact Or.inr ⟨h1.trans h2, h1'.trans h2'⟩

theorem insertSorted_perm (a : ℚ × ℚ) (l : List (ℚ × ℚ)) :
    List.Perm (insertSorted a l) (a :: l) := by
  induction l with
  | nil => exact List.Perm.refl _
  | cons b t ih =>
    unfold insertSorted
    by_cases h : lexLe a b
    · rw [if_pos h]
    · rw [if_neg h]
      exact (ih.cons b).trans (List.Perm.swap a b t)

theorem pySort_perm (l : List (ℚ × ℚ)) : List.Perm (pySort l) l := by
  induction l with
  | nil => exact List.Perm.refl _
  | cons a t ih => exact (insertSorted_perm a (pySort t)).trans (ih.cons a)

theorem mem_insertSorted {a x : ℚ × ℚ} {l : List (ℚ × ℚ)} :
    x ∈ insertSorted a l ↔ x = a ∨ x ∈ l := by
  rw [(insertSorted_perm a l).mem_iff, List.mem_cons]

theorem insertSorted_sorted (a : ℚ × ℚ) {l : List (ℚ × ℚ)}
    (h : l.Pairwise lexLe) : (insertSorted a l).Pairwise lexLe := by
  induction l with
  | nil => simp [insertSorted]
  | cons b t ih =>
    rcases List.pairwise_cons.mp h with ⟨hb, ht⟩
    unfold insertSorted
    by_cases hab : lexLe a b
    · rw [if_pos hab]
      refine List.pairwise_cons.mpr ⟨?_, h⟩
      intro x hx
      rcases List.mem_cons.mp hx with rfl | hx
      · exact hab
      · exact lexLe_trans hab (hb x hx)
    · rw [if_neg hab]
      have hba := (lexLe_total a b).resolve_left hab
      refine List.pairwise_cons.mpr ⟨?_, ih ht⟩
      intro x hx
      rcases mem_insertSorted.mp hx with rfl | hx
      · exact hba
      · exact hb x hx

theorem pySort_sorted (l : List (ℚ × ℚ)) : (pySort l).Pairwise lexLe := by
  induction l with
  | nil => simp [pySort]
  | cons a t ih => exact insertSorted_sorted a ih

theorem pySort_of_sorted {l : List (ℚ × ℚ)} (h : l.Pairwise lexLe) :
    pySort l = l := by
  induction l with
  | nil => rfl
  | cons a t ih =>
    rcases List.pairwise_cons.mp h with ⟨ha, ht⟩
    show insertSorted a (pySort t) = a :: t
    rw [ih ht]
    cases t with
    | nil => rfl
    | cons b t2 =>
      show (if lexLe a b then a :: b :: t2 else b :: insertSorted a t2) = a :: b :: t2
      rw [if_pos (ha b (List.mem_cons_self b t2))]

/-! ### Lemmas about the merge scan -/

theorem mergeLoop_head (l : List (ℚ × ℚ)) : ∀ cur : ℚ × ℚ,
    ∃ e tl, mergeLoop cur l = (cur.1, e) :: tl := by
  induction l with
  | nil => exact fun cur => ⟨cur.2, [], rfl⟩
  | cons s rest ih =>
    intro cur
    unfold mergeLoop
    by_cases h : cur.2 < s.1
    · rw [if_pos h]; exact ⟨cur.2, mergeLoop s rest, rfl⟩
    · rw [if_neg h]; simpa using ih (cur.1, max cur.2 s.2)

theorem mergeLoop_chain (l : List (ℚ × ℚ)) : ∀ cur : ℚ × ℚ,
    List.Chain' (fun a b => a.2 < b.1) (mergeLoop cur l) := by
  induction l with
  | nil => intro cur; simp [mergeLoop]
  | cons s rest ih =>
    intro cur
    unfold mergeLoop
    by_cases h : cur.2 < s.1
    · rw [if_pos h]
      obtain ⟨e, tl, heq⟩ := mergeLoop_head rest s
      refine List.chain'_cons'.mpr ⟨?_, ih s⟩
      intro b hb
      rw [heq] at hb
      simp only [List.head?_cons, Option.mem_def, Option.some.injEq] at hb
      rw [← hb]
      exact h
    · rw [if_neg h]; exact ih (cur.1, max cur.2 s.2)

theorem mergeLoop_mem (l : List (ℚ × ℚ)) : ∀ cur x, x ∈ mergeLoop cur l →
    ∃ t ∈ cur :: l, x.1 = t.1 ∧ t.2 ≤ x.2 := by
  induction l with
  | nil =>
    intro cur x hx
    unfold mergeLoop at hx
    rw [List.mem_singleton] at hx
    exact ⟨cur, List.mem_cons_self _ _, by rw [hx], by rw [hx]⟩
  | cons s rest ih =>
    intro cur x hx
    unfold mergeLoop at hx
    by_cases h : cur.2 < s.1
    · rw [if_pos h] at hx
      rcases List.mem_cons.mp hx with rfl | hx
      · exact ⟨x, List.mem_cons_self _ _, rfl, le_refl _⟩
      · obtain ⟨t, ht, h1, h2⟩ := ih s x hx
        exact ⟨t, List.mem_cons_of_mem cur ht, h1, h2⟩
    · rw [if_neg h] at hx
      obtain ⟨t, ht, h1, h2⟩ := ih (cur.1, max cur.2 s.2) x hx
      rcases List.mem_cons.mp ht with rfl | ht
      · exact ⟨cur, List.mem_cons_self _ _, h1, (le_max_left _ _).trans h2⟩
      · exact ⟨t, List.mem_cons_of_mem cur (List.mem_cons_of_mem s ht), h1, h2⟩

theorem mergeLoop_sorted (l : List (ℚ × ℚ)) : ∀ cur : ℚ × ℚ,
    (cur :: l).Pairwise lexLe → (mergeLoop cur l).Pairwise lexLe := by
  induction l with
  | nil => intro cur _; simp [mergeLoop]
  | cons s rest ih =>
    intro cur h
    rcases List.pairwise_cons.mp h with ⟨hc, hs⟩
    unfold mergeLoop
    by_cases hb : cur.2 < s.1
    · rw [if_pos hb]
      refine List.pairwise_cons.mpr ⟨?_, ih s hs⟩
      intro x hx
      obtain ⟨t, ht, h1, h2⟩ := mergeLoop_mem rest s x hx
      rcases hc t ht with h3 | ⟨h3, h3'⟩
      · exact Or.inl (h1 ▸ h3)
      · exact Or.inr ⟨h1 ▸ h3, h3'.trans h2⟩
    · rw [if_neg hb]
      refine ih (cur.1, max cur.2 s.2) (List.pairwise_cons.mpr ⟨?_, (List.pairwise_cons.mp hs).2⟩)
      intro x hx
      have hcx := hc x (List.mem_cons_of_mem s hx)
      have hsx := (List.pairwise_cons.mp hs).1 x hx
      rcases hcx with h1 | ⟨h1, h1'⟩
      · exact Or.inl h1
      · refine Or.inr ⟨h1, max_le h1' ?_⟩
        rcases hsx with h2 | ⟨h2, h2'⟩
        · rcases hc s (List.mem_cons_self s rest) with h3 | ⟨h3, h3'⟩
          · exact absurd (h3.trans h2) (by rw [h1]; exact lt_irrefl _)
          · exact absurd (h3 ▸ h2) (by rw [h1]; exact lt_irrefl _)
        · exact h2'

theorem mergeLoop_of_chain (l : List (ℚ × ℚ)) : ∀ cur : ℚ × ℚ,
    List.Chain' (fun a b => a.2 < b.1) (cur :: l) → mergeLoop cur l = cur :: l := by
  induction l with
  | nil => intro cur _; rfl
  | cons s rest ih =>
    intro cur h
    rcases List.chain'_cons.mp h with ⟨h1, h2⟩
    unfold mergeLoop
    rw [if_pos h1, ih s h2]

theorem normalize_sorted (l : List (ℚ × ℚ)) : (normalize l).Pairwise lexLe := by
  unfold normalize
  rcases h : pySort l with _ | ⟨a, t⟩
  · simp [mergeScan]
  · have hs := pySort_sorted l
    rw [h] at hs
    exact mergeLoop_sorted t a hs

theorem normalize_chain (l : List (ℚ × ℚ)) :
    List.Chain' (fun a b => a.2 < b.1) (normalize l) := by
  unfold normalize
  rcases h : pySort l with _ | ⟨a, t⟩
  · simp [mergeScan]
  · exact mergeLoop_chain t a

/-! ### Claim C5 — output of normalization is sorted and strictly disjoint -/

/-- C5: for every input list of time ranges, the output of the interval
normalization (sort then merge) is sorted ascending by start, and every
adjacent pair `(a, b)` in the output satisfies `a.end < b.start`. -/
theorem C5_normalize_sorted_strictly_disjoint (S : List (ℚ × ℚ)) :
    (normalize S).Pairwise (fun a b => a.1 ≤ b.1) ∧
    List.Chain' (fun a b => a.2 < b.1) (normalize S) :=
  ⟨(normalize_sorted S).imp (fun h => h.elim le_of_lt (fun h2 => le_of_eq h2.1)),
   normalize_chain S⟩

/-! ### Claim C7 — normalization is idempotent -/

/-- C7: the interval normalization is idempotent on every input list:
`normalize (normalize S) = normalize S`. -/
theorem C7_normalize_idempotent (S : List (ℚ × ℚ)) :
    normalize (normalize S) = normalize S := by
  show mergeScan (pySort (normalize S)) = normalize S
  rw [pySort_of_sorted (normalize_sorted S)]
  have hc := normalize_chain S
  rcases h : normalize S with _ | ⟨a, t⟩
  · rfl
  · rw [h] at hc
    show mergeLoop a t = a :: t
    exact mergeLoop_of_chain t a hc

/-! ### Claim C3 — ranges touching at an exact boundary -/

/-- C3 counterexample: the ranges `(0,1)` and `(1,2)` touch at the exact
boundary `1` without overlapping, yet the normalization merges them into
the single range `(0,2)` instead of keeping two entries — the merge opens
a new segment only when `seg[0] > merged[-1][1]`, so equal boundaries
merge. -/
theorem C3_touching_kept_separate_counterexample :
    normalize [((0 : ℚ), 1), (1, 2)] = [(0, 2)] := by decide

/-- C3 amended: two ranges sharing an exact boundary (`a.end = b.start`)
are merged by the normalization into one range covering both. -/
theorem C3_touching_ranges_merged (a b c : ℚ) (hab : a ≤ b) (hbc : b ≤ c) :
    normalize [(a, b), (b, c)] = [(a, c)] := by
  have hlex : lexLe (a, b) (b, c) := by
    rcases lt_or_eq_of_le hab with h | h
    · exact Or.inl h
    · exact Or.inr ⟨h, hbc⟩
  show mergeScan (pySort [(a, b), (b, c)]) = [(a, c)]
  have h1 : pySort [(a, b), (b, c)] = [(a, b), (b, c)] := by
    show insertSorted (a, b) (insertSorted (b, c) []) = _
    simp [insertSorted, if_pos hlex]
  rw [h1]
  show mergeLoop (a, b) [(b, c)] = [(a, c)]
  unfold mergeLoop
  rw [if_neg (lt_irrefl b)]
  unfold mergeLoop
  rw [max_eq_right hbc]

/-- Witness for C3's amended theorem at `a = 0`, `b = 1`, `c = 2`. -/
theorem C3_touching_ranges_merged_witness :
    (0 : ℚ) ≤ 1 ∧ (1 : ℚ) ≤ 2 ∧ normalize [((0 : ℚ), 1), (1, 2)] = [(0, 2)] :=
  ⟨by decide, by decide, C3_touching_ranges_merged 0 1 2 (by decide) (by decide)⟩

/-! ### Total covered length -/

theorem totalLen_cons (a : ℚ × ℚ) (l : List (ℚ × ℚ)) :
    totalLen (a :: l) = (a.2 - a.1) + totalLen l := by
  unfold totalLen
  rw [List.map_cons, List.sum_cons]

theorem totalLen_append (l1 l2 : List (ℚ × ℚ)) :
    totalLen (l1 ++ l2) = totalLen l1 + totalLen l2 := by
  unfold totalLen
  rw [List.map_append, List.sum_append]

theorem totalLen_nonneg {l : List (ℚ × ℚ)} (h : ∀ r ∈ l, r.1 ≤ r.2) :
    0 ≤ totalLen l := by
  unfold totalLen
  apply List.sum_nonneg
  intro x hx
  obtain ⟨r, hr, rfl⟩ := List.mem_map.mp hx
  linarith [h r hr]

theorem totalLen_insertSorted (a : ℚ × ℚ) (l : List (ℚ × ℚ)) :
    totalLen (insertSorted a l) = (a.2 - a.1) + totalLen l := by
  induction l with
  | nil => rfl
  | cons b t ih =>
    unfold insertSorted
    by_cases h : lexLe a b
    · rw [if_pos h, totalLen_cons, totalLen_cons]
    · rw [if_neg h, totalLen_cons, ih, totalLen_cons]; ring

theorem totalLen_pySort (l : List (ℚ × ℚ)) : totalLen (pySort l) = totalLen l := by
  induction l with
  | nil => rfl
  | cons a t ih =>
    show totalLen (insertSorted a (pySort t)) = _
    rw [totalLen_insertSorted, ih, totalLen_cons]

theorem mergeLoop_totalLen_le (l : List (ℚ × ℚ)) : ∀ cur : ℚ × ℚ,
    (∀ r ∈ l, r.1 ≤ r.2) →
    totalLen (mergeLoop cur l) ≤ (cur.2 - cur.1) + totalLen l := by
  induction l with
  | nil =>
    intro cur _
    unfold mergeLoop
    rw [totalLen_cons]
  | cons s rest ih =>
    intro cur hv
    have hs : s.1 ≤ s.2 := hv s (List.mem_cons_self s rest)
    have hrest : ∀ r ∈ rest, r.1 ≤ r.2 := fun r hr => hv r (List.mem_cons_of_mem s hr)
    unfold mergeLoop
    by_cases h : cur.2 < s.1
    · rw [if_pos h, totalLen_cons, totalLen_cons]
      have := ih s hrest
      linarith
    · rw [if_neg h, totalLen_cons]
      have hb := ih (cur.1, max cur.2 s.2) hrest
      have hmax : max cur.2 s.2 ≤ cur.2 + (s.2 - s.1) :=
        max_le (by linarith) (by linarith [not_lt.mp h])
      simp only at hb
      linarith

theorem chain_head_le (l : List (ℚ × ℚ)) : ∀ a : ℚ × ℚ,
    (∀ r ∈ l, r.1 < r.2) →
    List.Chain' (fun u v : ℚ × ℚ => u.2 ≤ v.1) (a :: l) →
    ∀ x ∈ l, a.2 ≤ x.1 := by
  induction l with
  | nil => intro a _ _ x hx; exact absurd hx (List.not_mem_nil x)
  | cons b t ih =>
    intro a hv hc x hx
    rcases List.chain'_cons.mp hc with ⟨h1, h2⟩
    rcases List.mem_cons.mp hx with rfl | hx
    · exact h1
    · have hb : b.1 < b.2 := hv b (List.mem_cons_self b t)
      have := ih b (fun r hr => hv r (List.mem_cons_of_mem b hr)) h2 x hx
      linarith

theorem pairwise_disjoint_of_chain (l : List (ℚ × ℚ))
    (hv : ∀ r ∈ l, r.1 < r.2)
    (hc : List.Chain' (fun u v : ℚ × ℚ => u.2 ≤ v.1) l) :
    l.Pairwise (fun u v : ℚ × ℚ => u.2 ≤ v.1) := by
  induction l with
  | nil => simp
  | cons a t ih =>
    have ht : List.Chain' (fun u v : ℚ × ℚ => u.2 ≤ v.1) t := hc.tail
    refine List.pairwise_cons.mpr ⟨?_, ih (fun r hr => hv r (List.mem_cons_of_mem a hr)) ht⟩
    exact chain_head_le t a (fun r hr => hv r (List.mem_cons_of_mem a hr)) hc

theorem mergeLoop_totalLen_lt (l : List (ℚ × ℚ)) : ∀ cur : ℚ × ℚ,
    (∀ r ∈ cur :: l, r.1 < r.2) →
    ¬ List.Chain' (fun u v : ℚ × ℚ => u.2 ≤ v.1) (cur :: l) →
    totalLen (mergeLoop cur l) < (cur.2 - cur.1) + totalLen l := by
  induction l with
  | nil =>
    intro cur _ hch
    exact absurd (List.chain'_singleton cur) hch
  | cons s rest ih =>
    intro cur hv hch
    have hs : s.1 < s.2 := hv s (List.mem_cons_of_mem cur (List.mem_cons_self s rest))
    have hcur : cur.1 < cur.2 := hv cur (List.mem_cons_self cur (s :: rest))
    unfold mergeLoop
    by_cases h : cur.2 < s.1
    · rw [if_pos h, totalLen_cons, totalLen_cons]
      have hch2 : ¬ List.Chain' (fun u v : ℚ × ℚ => u.2 ≤ v.1) (s :: rest) := by
        intro hc
        exact hch (List.chain'_cons.mpr ⟨le_of_lt h, hc⟩)
      have := ih s (fun r hr => hv r (List.mem_cons_of_mem cur hr)) hch2
      linarith
    · rw [if_neg h, totalLen_cons]
      push_neg at h
      by_cases h2 : s.1 < cur.2
      · have hle := mergeLoop_totalLen_le rest (cur.1, max cur.2 s.2)
          (fun r hr => le_of_lt (hv r (List.mem_cons_of_mem cur (List.mem_cons_of_mem s hr))))
        have hmax : max cur.2 s.2 < cur.2 + (s.2 - s.1) :=
          max_lt (by linarith) (by linarith)
        simp only at hle
        linarith
      · have hseq : s.1 = cur.2 := le_antisymm h (not_lt.mp h2)
        have hch2 : ¬ List.Chain' (fun u v : ℚ × ℚ => u.2 ≤ v.1) (s :: rest) := by
          intro hc
          exact hch (List.chain'_cons.mpr ⟨le_of_eq hseq.symm, hc⟩)
        have hch3 : ¬ List.Chain' (fun u v : ℚ × ℚ => u.2 ≤ v.1)
            ((cur.1, max cur.2 s.2) :: rest) := by
          intro hc
          apply hch2
          cases rest with
          | nil => exact List.chain'_singleton s
          | cons r2 rest2 =>
            rcases List.chain'_cons.mp hc with ⟨h1, h2'⟩
            exact List.chain'_cons.mpr ⟨le_trans (le_max_right cur.2 s.2) h1, h2'⟩
        have hv3 : ∀ r ∈ (cur.1, max cur.2 s.2) :: rest, r.1 < r.2 := by
          intro r hr
          rcases List.mem_cons.mp hr with rfl | hr
          · exact lt_of_lt_of_le hcur (le_max_left _ _)
          · exact hv r (List.mem_cons_of_mem cur (List.mem_cons_of_mem s hr))
        have := ih (cur.1, max cur.2 s.2) hv3 hch3
        have hmax_le : max cur.2 s.2 ≤ cur.2 + (s.2 - s.1) :=
          max_le (by linarith) (by linarith)
        simp only at this
        linarith

/-! ### Claim C9 — reconciled mute duration bound -/

/-- C9: for all EDL-sourced and interactively-sourced mute range sets
(of genuine ranges, `start < end`), the total covered duration of the
reconciled (sorted and merged) mute set is at most the sum of the two
input sets' total durations, and strictly less as soon as some EDL-sourced
range overlaps some interactively-sourced range on a set of positive
length. -/
theorem C9_reconcile_duration_bound (E I : List (ℚ × ℚ))
    (hv : ∀ r ∈ E ++ I, r.1 < r.2) :
    totalLen (merged_segments E I) ≤ totalLen E + totalLen I ∧
    ((∃ a ∈ E, ∃ b ∈ I, max a.1 b.1 < min a.2 b.2) →
      totalLen (merged_segments E I) < totalLen E + totalLen I) := by
  have hvs : ∀ r ∈ pySort (E ++ I), r.1 < r.2 :=
    fun r hr => hv r ((pySort_perm (E ++ I)).mem_iff.mp hr)
  have htot : totalLen (pySort (E ++ I)) = totalLen E + totalLen I := by
    rw [totalLen_pySort, totalLen_append]
  constructor
  · unfold merged_segments
    rcases hp : pySort (E ++ I) with _ | ⟨a, t⟩
    · show totalLen [] ≤ _
      have h0 : totalLen ([] : List (ℚ × ℚ)) = 0 := rfl
      rw [h0, ← htot, hp]
      exact le_refl _
    · show totalLen (mergeLoop a t) ≤ _
      have hb := mergeLoop_totalLen_le t a
        (fun r hr => le_of_lt (hvs r (hp ▸ List.mem_cons_of_mem a hr)))
      have : totalLen (pySort (E ++ I)) = (a.2 - a.1) + totalLen t := by
        rw [hp, totalLen_cons]
      linarith [htot ▸ this]
  · rintro ⟨a, ha, b, hb, hov⟩
    have hchain : ¬ List.Chain' (fun u v : ℚ × ℚ => u.2 ≤ v.1) (pySort (E ++ I)) := by
      intro hc
      have hpw := pairwise_disjoint_of_chain _ hvs hc
      have hpw2 : (pySort (E ++ I)).Pairwise
          (fun u v : ℚ × ℚ => u.2 ≤ v.1 ∨ v.2 ≤ u.1) := hpw.imp Or.inl
      have hpw3 : (E ++ I).Pairwise (fun u v : ℚ × ℚ => u.2 ≤ v.1 ∨ v.2 ≤ u.1) :=
        ((pySort_perm (E ++ I)).pairwise_iff (fun h' => h'.symm)).mp hpw2
      rcases List.pairwise_append.mp hpw3 with ⟨_, _, hcross⟩
      rcases hcross a ha b hb with hcase | hcase
      · have : b.1 < a.2 := lt_of_le_of_lt (le_max_right a.1 b.1)
          (lt_of_lt_of_le hov (min_le_left a.2 b.2))
        linarith
      · have : a.1 < b.2 := lt_of_le_of_lt (le_max_left a.1 b.1)
          (lt_of_lt_of_le hov (min_le_right a.2 b.2))
        linarith
    unfold merged_segments
    rcases hp : pySort (E ++ I) with _ | ⟨a0, t0⟩
    · exfalso
      have hperm := pySort_perm (E ++ I)
      rw [hp] at hperm
      have hnil : E ++ I = [] := hperm.symm.eq_nil
      exact absurd (List.mem_append.mpr (Or.inl ha)) (hnil ▸ List.not_mem_nil a)
    · show totalLen (mergeLoop a0 t0) < _
      rw [hp] at hchain hvs
      have := mergeLoop_totalLen_lt t0 a0 hvs hchain
      have ht : totalLen (pySort (E ++ I)) = (a0.2 - a0.1) + totalLen t0 := by
        rw [hp, totalLen_cons]
      linarith [htot ▸ ht]

/-- Witness for C9 at `E = [(0,2)]`, `I = [(1,3)]`, which overlap on
`(1,2)`. -/
theorem C9_reconcile_duration_bound_witness :
    (∀ r ∈ [((0 : ℚ), 2)] ++ [((1 : ℚ), 3)], r.1 < r.2) ∧
    (totalLen (merged_segments [((0 : ℚ), 2)] [((1 : ℚ), 3)]) ≤
        totalLen [((0 : ℚ), 2)] + totalLen [((1 : ℚ), 3)] ∧
      ((∃ a ∈ [((0 : ℚ), 2)], ∃ b ∈ [((1 : ℚ), 3)], max a.1 b.1 < min a.2 b.2) →
        totalLen (merged_segments [((0 : ℚ), 2)] [((1 : ℚ), 3)]) <
          totalLen [((0 : ℚ), 2)] + totalLen [((1 : ℚ), 3)])) :=
  ⟨by decide, C9_reconcile_duration_bound [(0, 2)] [(1, 3)] (by decide)⟩

/-! ### Lemmas about the keep-segment loop -/

theorem keepGo_totalLen (D : ℚ) (remove : List (ℚ × ℚ)) : ∀ c : ℚ,
    c ≤ D →
    (∀ r ∈ remove, c ≤ r.1 ∧ r.1 < r.2 ∧ r.2 ≤ D) →
    remove.Pairwise (fun u v : ℚ × ℚ => u.2 ≤ v.1) →
    totalLen (keepGo D c remove) + totalLen remove = D - c := by
  induction remove with
  | nil =>
    intro c hc _ _
    unfold keepGo
    have h0 : totalLen ([] : List (ℚ × ℚ)) = 0 := rfl
    by_cases h : c < D
    · rw [if_pos h, totalLen_cons, h0]; ring
    · rw [if_neg h, h0]
      have : c = D := le_antisymm hc (not_lt.mp h)
      rw [this]; ring
  | cons hd rest ih =>
    intro c hc hv hpw
    obtain ⟨s, e⟩ := hd
    obtain ⟨hcs, hse, heD⟩ := hv (s, e) (List.mem_cons_self _ _)
    have hrest : ∀ r ∈ rest, e ≤ r.1 ∧ r.1 < r.2 ∧ r.2 ≤ D := fun r hr =>
      ⟨(List.pairwise_cons.mp hpw).1 r hr, (hv r (List.mem_cons_of_mem _ hr)).2⟩
    have hpwt := (List.pairwise_cons.mp hpw).2
    unfold keepGo
    by_cases h : c < s
    · rw [if_pos h, totalLen_cons, totalLen_cons]
      have := ih e heD hrest hpwt
      linarith
    · rw [if_neg h, totalLen_cons]
      have := ih e heD hrest hpwt
      have hceq : c = s := le_antisymm hcs (not_lt.mp h)
      linarith

theorem keepGo_covers (D : ℚ) (remove : List (ℚ × ℚ)) : ∀ c : ℚ,
    (∀ r ∈ remove, c ≤ r.1 ∧ r.1 < r.2 ∧ r.2 ≤ D) →
    remove.Pairwise (fun u v : ℚ × ℚ => u.2 ≤ v.1) →
    ∀ x : ℚ, c ≤ x → x < D → covers (keepGo D c remove) x ∨ covers remove x := by
  induction remove with
  | nil =>
    intro c _ _ x hcx hxD
    left
    unfold keepGo
    rw [if_pos (lt_of_le_of_lt hcx hxD)]
    exact ⟨(c, D), List.mem_singleton.mpr rfl, hcx, hxD⟩
  | cons hd rest ih =>
    intro c hv hpw x hcx hxD
    obtain ⟨s, e⟩ := hd
    obtain ⟨hcs, hse, heD⟩ := hv (s, e) (List.mem_cons_self _ _)
    have hrest : ∀ r ∈ rest, e ≤ r.1 ∧ r.1 < r.2 ∧ r.2 ≤ D := fun r hr =>
      ⟨(List.pairwise_cons.mp hpw).1 r hr, (hv r (List.mem_cons_of_mem _ hr)).2⟩
    have hpwt := (List.pairwise_cons.mp hpw).2
    unfold keepGo
    by_cases h : c < s
    · rw [if_pos h]
      by_cases hx1 : x < s
      · exact Or.inl ⟨(c, s), List.mem_cons_self _ _, hcx, hx1⟩
      · by_cases hx2 : x < e
        · exact Or.inr ⟨(s, e), List.mem_cons_self _ _, not_lt.mp hx1, hx2⟩
        · rcases ih e hrest hpwt x (not_lt.mp hx2) hxD with hk | hr
          · obtain ⟨k, hk1, hk2⟩ := hk
            exact Or.inl ⟨k, List.mem_cons_of_mem _ hk1, hk2⟩
          · obtain ⟨r, hr1, hr2⟩ := hr
            exact Or.inr ⟨r, List.mem_cons_of_mem _ hr1, hr2⟩
    · rw [if_neg h]
      by_cases hx2 : x < e
      · exact Or.inr ⟨(s, e), List.mem_cons_self _ _, (not_lt.mp h).trans hcx, hx2⟩
      · rcases ih e hrest hpwt x (not_lt.mp hx2) hxD with hk | hr
        · exact Or.inl hk
        · obtain ⟨r, hr1, hr2⟩ := hr
          exact Or.inr ⟨r, List.mem_cons_of_mem _ hr1, hr2⟩

theorem keepGo_mem_bounds (D : ℚ) (remove : List (ℚ × ℚ)) : ∀ c : ℚ,
    (∀ r ∈ remove, c ≤ r.1 ∧ r.1 < r.2 ∧ r.2 ≤ D) →
    remove.Pairwise (fun u v : ℚ × ℚ => u.2 ≤ v.1) →
    ∀ k ∈ keepGo D c remove, c ≤ k.1 ∧ k.1 < k.2 ∧ k.2 ≤ D ∧
      ∀ r ∈ remove, k.2 ≤ r.1 ∨ r.2 ≤ k.1 := by
  induction remove with
  | nil =>
    intro c _ _ k hk
    unfold keepGo at hk
    by_cases h : c < D
    · rw [if_pos h, List.mem_singleton] at hk
      subst hk
      exact ⟨le_refl _, h, le_refl _, fun r hr => absurd hr (List.not_mem_nil r)⟩
    · rw [if_neg h] at hk
      exact absurd hk (List.not_mem_nil k)
  | cons hd rest ih =>
    intro c hv hpw k hk
    obtain ⟨s, e⟩ := hd
    obtain ⟨hcs, hse, heD⟩ := hv (s, e) (List.mem_cons_self _ _)
    have hrest : ∀ r ∈ rest, e ≤ r.1 ∧ r.1 < r.2 ∧ r.2 ≤ D := fun r hr =>
      ⟨(List.pairwise_cons.mp hpw).1 r hr, (hv r (List.mem_cons_of_mem _ hr)).2⟩
    have hpwt := (List.pairwise_cons.mp hpw).2
    unfold keepGo at hk
    by_cases h : c < s
    · rw [if_pos h] at hk
      rcases List.mem_cons.mp hk with rfl | hk
      · refine ⟨le_refl _, h, hse.le.trans heD, ?_⟩
        intro r hr
        rcases List.mem_cons.mp hr with rfl | hr
        · exact Or.inl (le_refl _)
        · exact Or.inl (le_of_lt (lt_of_lt_of_le hse (hrest r hr).1))
      · obtain ⟨h1, h2, h3, h4⟩ := ih e hrest hpwt k hk
        refine ⟨(hcs.trans hse.le).trans h1, h2, h3, ?_⟩
        intro r hr
        rcases List.mem_cons.mp hr with rfl | hr
        · exact Or.inr h1
        · exact h4 r hr
    · rw [if_neg h] at hk
      obtain ⟨h1, h2, h3, h4⟩ := ih e hrest hpwt k hk
      refine ⟨(hcs.trans hse.le).trans h1, h2, h3, ?_⟩
      intro r hr
      rcases List.mem_cons.mp hr with rfl | hr
      · exact Or.inr h1
      · exact h4 r hr

theorem keepGo_chain (D : ℚ) (remove : List (ℚ × ℚ)) : ∀ c : ℚ,
    (∀ r ∈ remove, c ≤ r.1 ∧ r.1 < r.2 ∧ r.2 ≤ D) →
    remove.Pairwise (fun u v : ℚ × ℚ => u.2 ≤ v.1) →
    List.Chain' (fun u v : ℚ × ℚ => u.2 < v.1) (keepGo D c remove) := by
  induction remove with
  | nil =>
    intro c _ _
    unfold keepGo
    by_cases h : c < D
    · rw [if_pos h]; exact List.chain'_singleton _
    · rw [if_neg h]; exact List.chain'_nil
  | cons hd rest ih =>
    intro c hv hpw
    obtain ⟨s, e⟩ := hd
    obtain ⟨hcs, hse, heD⟩ := hv (s, e) (List.mem_cons_self _ _)
    have hrest : ∀ r ∈ rest, e ≤ r.1 ∧ r.1 < r.2 ∧ r.2 ≤ D := fun r hr =>
      ⟨(List.pairwise_cons.mp hpw).1 r hr, (hv r (List.mem_cons_of_mem _ hr)).2⟩
    have hpwt := (List.pairwise_cons.mp hpw).2
    unfold keepGo
    by_cases h : c < s
    · rw [if_pos h]
      refine List.chain'_cons'.mpr ⟨?_, ih e hrest hpwt⟩
      intro b hb
      have hmem : b ∈ keepGo D e rest := List.mem_of_mem_head? hb
      have hb1 := (keepGo_mem_bounds D rest e hrest hpwt b hmem).1
      show s < b.1
      linarith
    · rw [if_neg h]
      exact ih e hrest hpwt

/-! ### Claim C4 — keep segments tile the timeline -/

/-- C4: for every disjoint, ascending-sorted remove set whose ranges lie
within `[0, D]`, the derived keep segments together with the remove ranges
exactly tile `[0, D)`: the summed lengths add up to `D`, every point of
`[0, D)` is covered by a keep range or a remove range, no point is covered
by both, the keep ranges are themselves ordered and disjoint, and an empty
remove set yields the single keep range `(0, D)`. -/
theorem C4_keep_remove_tiling (remove : List (ℚ × ℚ)) (D : ℚ)
    (hD : 0 < D)
    (hv : ∀ r ∈ remove, 0 ≤ r.1 ∧ r.1 < r.2 ∧ r.2 ≤ D)
    (hsorted : remove.Pairwise (fun u v : ℚ × ℚ => u.2 ≤ v.1)) :
    totalLen (keep_segments remove D) + totalLen remove = D ∧
    (∀ x : ℚ, 0 ≤ x → x < D →
      covers (keep_segments remove D) x ∨ covers remove x) ∧
    (∀ x : ℚ, ¬(covers (keep_segments remove D) x ∧ covers remove x)) ∧
    List.Chain' (fun u v : ℚ × ℚ => u.2 < v.1) (keep_segments remove D) ∧
    (remove = [] → keep_segments remove D = [(0, D)]) := by
  refine ⟨?_, ?_, ?_, ?_, ?_⟩
  · have := keepGo_totalLen D remove 0 hD.le hv hsorted
    unfold keep_segments
    linarith
  · intro x h0 hxD
    exact keepGo_covers D remove 0 hv hsorted x h0 hxD
  · rintro x ⟨⟨k, hk, hk1, hk2⟩, ⟨r, hr, hr1, hr2⟩⟩
    have hb := keepGo_mem_bounds D remove 0 hv hsorted k hk
    rcases hb.2.2.2 r hr with hcase | hcase <;> linarith
  · exact keepGo_chain D remove 0 hv hsorted
  · intro h
    subst h
    show keepGo D 0 [] = [(0, D)]
    unfold keepGo
    rw [if_pos hD]

/-- Witness for C4 at `remove = [(2,8),(10,12)]`, `D = 15` (the spec's own
example, where the keep segments are `[(0,2),(8,10),(12,15)]`). -/
theorem C4_keep_remove_tiling_witness :
    ((0 : ℚ) < 15 ∧
      (∀ r ∈ [((2 : ℚ), 8), ((10 : ℚ), 12)], 0 ≤ r.1 ∧ r.1 < r.2 ∧ r.2 ≤ 15) ∧
      List.Pairwise (fun u v : ℚ × ℚ => u.2 ≤ v.1) [((2 : ℚ), 8), ((10 : ℚ), 12)]) ∧
    (totalLen (keep_segments [((2 : ℚ), 8), ((10 : ℚ), 12)] 15) +
        totalLen [((2 : ℚ), 8), ((10 : ℚ), 12)] = 15 ∧
      (∀ x : ℚ, 0 ≤ x → x < 15 →
        covers (keep_segments [((2 : ℚ), 8), ((10 : ℚ), 12)] 15) x ∨
          covers [((2 : ℚ), 8), ((10 : ℚ), 12)] x) ∧
      (∀ x : ℚ, ¬(covers (keep_segments [((2 : ℚ), 8), ((10 : ℚ), 12)] 15) x ∧
          covers [((2 : ℚ), 8), ((10 : ℚ), 12)] x)) ∧
      List.Chain' (fun u v : ℚ × ℚ => u.2 < v.1)
        (keep_segments [((2 : ℚ), 8), ((10 : ℚ), 12)] 15) ∧
      ([((2 : ℚ), 8), ((10 : ℚ), 12)] = ([] : List (ℚ × ℚ)) →
        keep_segments [((2 : ℚ), 8), ((10 : ℚ), 12)] 15 = [(0, 15)])) :=
  ⟨⟨by decide, by decide, by decide⟩,
    C4_keep_remove_tiling [(2, 8), (10, 12)] 15 (by decide) (by decide) (by decide)⟩

/-! ### Claim C2 — the "end" keyword -/

/-- C2 counterexample: with an undefined (`None`) duration the claim says
`parse_timestamp_string "end"` fails with `InvalidTimestamp`, but the code
returns the duration argument verbatim — `return video_duration` has no
`None` check — so the call succeeds and yields `None`. -/
theorem C2_end_none_counterexample :
    parse_timestamp_string "end" none = .ok none := by decide

/-- C2 amended: `parse_timestamp_string` applied to `"end"` returns the
timeline duration argument as-is: duration `42.0` yields `42.0`, and an
undefined (`None`) duration yields `None` rather than an error. -/
theorem C2_end_returns_duration_verbatim (d : Option ℚ) :
    parse_timestamp_string "end" d = .ok d := rfl

/-! ### Claim C1 — mute_audio rows are not validated -/

/-- C1 counterexample: a `mute_audio` row with `record_out` missing is
accepted by the lenient load (returned as an operation, no diagnostic),
and a `mute_audio` row with `record_in = 5 > record_out = 2` (also out of
order) is accepted even by the strict load — the validation branch tests
only `action in {'remove', 'keep'}`. -/
theorem C1_mute_not_validated_counterexample :
    load_edl_csv
        [Row.mk (some "mute_audio") (some "1") none none none none none none none none]
        10 false =
      .ok ([Op.mk "mute_audio" (some 1) none none none none none none none none], []) ∧
    load_edl_csv
        [Row.mk (some "mute_audio") (some "5") (some "2") none none none none none none none]
        10 true =
      .ok ([Op.mk "mute_audio" (some 5) (some 2) none none none none none none none], []) :=
  ⟨by decide, by decide⟩

/-- C1 amended: rows whose action is `mute_audio` are exempt from the
missing/order/range validation: whenever the `record_in` and `record_out`
cells parse (or are absent/empty), the row parser succeeds and returns the
operation with whatever values were parsed, regardless of ordering or
range. -/
theorem C1_mute_rows_not_validated (row : Row) (D : ℚ) (rin rout : Option ℚ)
    (ha : lowerChars (trimChars ((row.action.getD "").data)) = "mute_audio".data)
    (hin : parseField row.record_in D = .ok rin)
    (hout : parseField row.record_out D = .ok rout) :
    parse_edl_row row D =
      .ok (Op.mk "mute_audio" rin rout none none none none none none none) := by
  unfold parse_edl_row
  rw [ha, hin, hout]
  dsimp only
  rw [if_neg (by decide :
        ¬("mute_audio".data = "remove".data ∨ "mute_audio".data = "keep".data))]
  rw [if_neg (by decide : ¬("mute_audio".data = "insert".data))]

/-- Witness for C1's amended theorem: a `mute_audio` row with reversed,
out-of-range-looking timestamps is returned as an operation. -/
theorem C1_mute_rows_not_validated_witness :
    (lowerChars (trimChars (((Row.mk (some "mute_audio") (some "5") (some "2")
          none none none none none none none).action.getD "").data)) = "mute_audio".data ∧
      parseField (Row.mk (some "mute_audio") (some "5") (some "2")
          none none none none none none none).record_in 3 = .ok (some 5) ∧
      parseField (Row.mk (some "mute_audio") (some "5") (some "2")
          none none none none none none none).record_out 3 = .ok (some 2)) ∧
    parse_edl_row (Row.mk (some "mute_audio") (some "5") (some "2")
        none none none none none none none) 3 =
      .ok (Op.mk "mute_audio" (some 5) (some 2) none none none none none none none) :=
  ⟨⟨by decide, by decide, by decide⟩,
    C1_mute_rows_not_validated _ 3 (some 5) (some 2) (by decide) (by decide) (by decide)⟩

/-! ### Claim C10 — no range or sign checking in the timestamp parser -/

/-- C10: `parse_timestamp_string` performs no range or sign checking:
`"-5"` yields `-5.0` and `"90:00"` yields `5400.0` for every duration
argument; more generally any input other than `"end"` parses to the same
result for every duration.  Out-of-range values are rejected only by the
row parser, and only for `remove`/`keep` rows: a `mute_audio` row carrying
`record_in = "-5"`, `record_out = "90:00"` against duration `10` loads
fine, while the same values on a `remove` row fail the range check. -/
theorem C10_no_range_or_sign_check :
    (∀ d : Option ℚ, parse_timestamp_string "-5" d = .ok (some (-5))) ∧
    (∀ d : Option ℚ, parse_timestamp_string "90:00" d = .ok (some 5400)) ∧
    (∀ (s : String) (d d' : Option ℚ),
      lowerChars (trimChars s.data) ≠ "end".data →
      parse_timestamp_string s d = parse_timestamp_string s d') ∧
    (parse_edl_row (Row.mk (some "mute_audio") (some "-5") (some "90:00")
        none none none none none none none) 10).isOk = true ∧
    parse_edl_row (Row.mk (some "remove") (some "-5") (some "90:00")
        none none none none none none none) 10 = .error "Invalid time range" := by
  refine ⟨fun d => rfl, fun d => ?_, fun s d d' hne => ?_, by decide, by decide⟩
  · have h : parse_timestamp_string "90:00" d =
        .ok (some ((digitsToNat ['9', '0'] : ℚ) * 60 + (digitsToNat ['0', '0'] : ℚ))) := rfl
    have h1 : digitsToNat ['9', '0'] = 90 := by decide
    have h2 : digitsToNat ['0', '0'] = 0 := by decide
    rw [h, h1, h2]
    norm_num
  · simp only [parse_timestamp_string]
    split_ifs <;> rfl

/-- Witness for C10 at the input `"1:30"`, whose parse is independent of
the duration argument. -/
theorem C10_no_range_or_sign_check_witness :
    lowerChars (trimChars "1:30".data) ≠ "end".data ∧
    parse_timestamp_string "1:30" (some 77) = parse_timestamp_string "1:30" none :=
  ⟨by decide, C10_no_range_or_sign_check.2.2.1 "1:30" (some 77) none (by decide)⟩

/-! ### Claim C6 — lenient skip versus strict abort -/

theorem load_edl_go_lenient (D : ℚ) (rows : List Row) : ∀ idx : Nat,
    load_edl_go D false idx rows =
      .ok (rows.filterMap (fun r => (parse_edl_row r D).toOption),
        (List.enumFrom idx rows).filterMap (fun p =>
          match parse_edl_row p.2 D with
          | .ok _ => none
          | .error e => some (p.1, e))) := by
  induction rows with
  | nil => intro idx; rfl
  | cons r rest ih =>
    intro idx
    unfold load_edl_go
    rcases h : parse_edl_row r D with e | op
    · rw [ih (idx + 1)]
      simp [List.enumFrom, List.filterMap_cons, h, Except.toOption]
    · rw [ih (idx + 1)]
      simp [List.enumFrom, List.filterMap_cons, h, Except.toOption]

/-- C6: a lenient load keeps exactly the successfully parsed rows, in file
order, and records a `(1-based index, message)` diagnostic for every
failing row; on a concrete EDL of three valid `remove` rows with one
row missing `record_out` interposed at position 3, the lenient load
returns the three operations and the one diagnostic for row 3, and the
strict load of the same input aborts with an error carrying index 3. -/
theorem C6_lenient_skips_strict_aborts :
    (∀ (rows : List Row) (D : ℚ),
      load_edl_csv rows D false =
        .ok (rows.filterMap (fun r => (parse_edl_row r D).toOption),
          (List.enumFrom 1 rows).filterMap (fun p =>
            match parse_edl_row p.2 D with
            | .ok _ => none
            | .error e => some (p.1, e)))) ∧
    load_edl_csv
        [Row.mk (some "remove") (some "0") (some "1") none none none none none none none,
         Row.mk (some "remove") (some "2") (some "3") none none none none none none none,
         Row.mk (some "remove") (some "4") none none none none none none none none,
         Row.mk (some "remove") (some "5") (some "6") none none none none none none none]
        10 false =
      .ok ([Op.mk "remove" (some 0) (some 1) none none none none none none none,
            Op.mk "remove" (some 2) (some 3) none none none none none none none,
            Op.mk "remove" (some 5) (some 6) none none none none none none none],
           [(3, "Missing record_in or record_out")]) ∧
    load_edl_csv
        [Row.mk (some "remove") (some "0") (some "1") none none none none none none none,
         Row.mk (some "remove") (some "2") (some "3") none none none none none none none,
         Row.mk (some "remove") (some "4") none none none none none none none none,
         Row.mk (some "remove") (some "5") (some "6") none none none none none none none]
        10 true =
      .error (3, "Missing record_in or record_out") :=
  ⟨fun rows D => load_edl_go_lenient D rows 1, by decide, by decide⟩

/-! ### Claim C8 — insert-row validation -/

/-- C8: for rows whose action is `insert`, the row parser fails when
`insert_source` is empty, when the `source_out` column is missing, when
the parsed `source_in` (cell defaulting to `"0"`, both parsed without a
timeline-duration reference) is not strictly below the parsed
`source_out`, or when `record_in` is missing; otherwise it produces an
insert operation carrying those fields. -/
theorem C8_insert_row_validation :
    (∀ (row : Row) (D : ℚ),
      lowerChars (trimChars ((row.action.getD "").data)) = "insert".data →
      trimChars ((row.insert_source.getD "").data) = [] →
      ∃ e, parse_edl_row row D = .error e) ∧
    (∀ (row : Row) (D : ℚ),
      lowerChars (trimChars ((row.action.getD "").data)) = "insert".data →
      row.source_out = none →
      ∃ e, parse_edl_row row D = .error e) ∧
    (∀ (row : Row) (D : ℚ) (vi vo : ℚ),
      lowerChars (trimChars ((row.action.getD "").data)) = "insert".data →
      parse_timestamp_string (row.source_in.getD "0") none = .ok (some vi) →
      parse_timestamp_string (row.source_out.getD "") none = .ok (some vo) →
      vo ≤ vi →
      ∃ e, parse_edl_row row D = .error e) ∧
    (∀ (row : Row) (D : ℚ) (vi vo : ℚ) (rout : Option ℚ),
      lowerChars (trimChars ((row.action.getD "").data)) = "insert".data →
      trimChars ((row.insert_source.getD "").data) ≠ [] →
      parseField row.record_in D = .ok none →
      parseField row.record_out D = .ok rout →
      parse_timestamp_string (row.source_in.getD "0") none = .ok (some vi) →
      parse_timestamp_string (row.source_out.getD "") none = .ok (some vo) →
      vi < vo →
      parse_edl_row row D = .error "Missing record_in for insert action") ∧
    (∀ (row : Row) (D : ℚ) (vi vo ri tid tod : ℚ) (rout : Option ℚ),
      lowerChars (trimChars ((row.action.getD "").data)) = "insert".data →
      trimChars ((row.insert_source.getD "").data) ≠ [] →
      parseField row.record_in D = .ok (some ri) →
      parseField row.record_out D = .ok rout →
      parse_timestamp_string (row.source_in.getD "0") none = .ok (some vi) →
      parse_timestamp_string (row.source_out.getD "") none = .ok (some vo) →
      vi < vo →
      transDur row.transition_in_duration = .ok tid →
      transDur row.transition_out_duration = .ok tod →
      parse_edl_row row D =
        .ok (Op.mk "insert" (some ri) rout
          (some ⟨trimChars ((row.insert_source.getD "").data)⟩) (some vi) (some vo)
          (transName row.transition_in) (some tid)
          (transName row.transition_out) (some tod))) := by
  refine ⟨?_, ?_, ?_, ?_, ?_⟩
  · intro row D ha hsrc
    unfold parse_edl_row
    rw [ha, hsrc]
    rcases parseField row.record_in D with e | rin
    · exact ⟨e, rfl⟩
    rcases parseField row.record_out D with e | rout
    · exact ⟨e, rfl⟩
    dsimp only
    rw [if_neg (by decide :
          ¬("insert".data = "remove".data ∨ "insert".data = "keep".data))]
    rw [if_pos rfl]
    exact ⟨_, rfl⟩
  · intro row D ha hso
    unfold parse_edl_row
    rw [ha, hso]
    rcases parseField row.record_in D with e | rin
    · exact ⟨e, rfl⟩
    rcases parseField row.record_out D with e | rout
    · exact ⟨e, rfl⟩
    dsimp only
    rw [if_neg (by decide :
          ¬("insert".data = "remove".data ∨ "insert".data = "keep".data))]
    rw [if_pos rfl]
    by_cases hsrc : (trimChars ((row.insert_source.getD "").data)).isEmpty = true
    · rw [if_pos hsrc]
      exact ⟨_, rfl⟩
    · rw [if_neg hsrc]
      rcases hsi : parse_timestamp_string (row.source_in.getD "0") none with e | si
      · exact ⟨e, rfl⟩
      dsimp only
      rw [(by decide : parse_timestamp_string ((none : Option String).getD "") none =
            .error "Could not parse timestamp")]
      exact ⟨_, rfl⟩
  · intro row D vi vo ha hsi hso hvv
    unfold parse_edl_row
    rw [ha]
    rcases parseField row.record_in D with e | rin
    · exact ⟨e, rfl⟩
    rcases parseField row.record_out D with e | rout
    · exact ⟨e, rfl⟩
    dsimp only
    rw [if_neg (by decide :
          ¬("insert".data = "remove".data ∨ "insert".data = "keep".data))]
    rw [if_pos rfl]
    by_cases hsrc : (trimChars ((row.insert_source.getD "").data)).isEmpty = true
    · rw [if_pos hsrc]
      exact ⟨_, rfl⟩
    · rw [if_neg hsrc, hsi, hso]
      dsimp only
      rw [if_pos (by exact hvv : vi ≥ vo)]
      exact ⟨_, rfl⟩
  · intro row D vi vo rout ha hsrc hrin hrout hsi hso hvlt
    unfold parse_edl_row
    rw [ha, hrin, hrout]
    dsimp only
    rw [if_neg (by decide :
          ¬("insert".data = "remove".data ∨ "insert".data = "keep".data))]
    rw [if_pos rfl]
    rw [if_neg (fun hh => hsrc (List.isEmpty_iff.mp hh))]
    rw [hsi, hso]
    dsimp only
    rw [if_neg (not_le.mpr hvlt)]
    rw [if_pos rfl]
  · intro row D vi vo ri tid tod rout ha hsrc hrin hrout hsi hso hvlt htid htod
    unfold parse_edl_row
    rw [ha, hrin, hrout]
    dsimp only
    rw [if_neg (by decide :
          ¬("insert".data = "remove".data ∨ "insert".data = "keep".data))]
    rw [if_pos rfl]
    rw [if_neg (fun hh => hsrc (List.isEmpty_iff.mp hh))]
    rw [hsi, hso]
    dsimp only
    rw [if_neg (not_le.mpr hvlt)]
    rw [if_neg (Option.some_ne_none ri)]
    rw [htid, htod]

/-- Witness for C8: a fully populated insert row parses into the insert
operation carrying its fields. -/
theorem C8_insert_row_validation_witness :
    (lowerChars (trimChars (((Row.mk (some "insert") (some "7") none (some "clip.mp4")
          (some "1") (some "3") none none none none).action.getD "").data)) = "insert".data ∧
      trimChars (((Row.mk (some "insert") (some "7") none (some "clip.mp4")
          (some "1") (some "3") none none none none).insert_source.getD "").data) ≠ [] ∧
      parseField (Row.mk (some "insert") (some "7") none (some "clip.mp4")
          (some "1") (some "3") none none none none).record_in 10 = .ok (some 7) ∧
      parseField (Row.mk (some "insert") (some "7") none (some "clip.mp4")
          (some "1") (some "3") none none none none).record_out 10 = .ok none ∧
      parse_timestamp_string ((Row.mk (some "insert") (some "7") none (some "clip.mp4")
          (some "1") (some "3") none none none none).source_in.getD "0") none = .ok (some 1) ∧
      parse_timestamp_string ((Row.mk (some "insert") (some "7") none (some "clip.mp4")
          (some "1") (some "3") none none none none).source_out.getD "") none = .ok (some 3) ∧
      (1 : ℚ) < 3 ∧
      transDur (Row.mk (some "insert") (some "7") none (some "clip.mp4")
          (some "1") (some "3") none none none none).transition_in_duration = .ok 0 ∧
      transDur (Row.mk (some "insert") (some "7") none (some "clip.mp4")
          (some "1") (some "3") none none none none).transition_out_duration = .ok 0) ∧
    parse_edl_row (Row.mk (some "insert") (some "7") none (some "clip.mp4")
        (some "1") (some "3") none none none none) 10 =
      .ok (Op.mk "insert" (some 7) none
        (some ⟨trimChars (((Row.mk (some "insert") (some "7") none (some "clip.mp4")
            (some "1") (some "3") none none none none).insert_source.getD "").data)⟩)
        (some 1) (some 3) none (some 0) none (some 0)) :=
  ⟨⟨by decide, by decide, by decide, by decide, by decide, by decide, by decide,
     by decide, by decide⟩,
   C8_insert_row_validation.2.2.2.2 _ 10 1 3 7 0 0 none (by decide) (by decide)
     (by decide) (by decide) (by decide) (by decide) (by decide) (by decide) (by decide)⟩

end PyClipper
